import Mathlib

/-!
Shallow embedding of the fllama inference queue and tokenizer caches
(`fllama_inference_queue.cpp`, `fllama_tokenize.cpp`).

Modelling conventions:
* `std::unordered_map<std::string, V>` is modelled as an association list
  `List (String × V)` with unique keys; `lookup` is `find`, `updateEntry`
  mutation through an iterator, `eraseEntry` erasure by key.
* `std::chrono::steady_clock::time_point` is modelled as an `Int` counting
  whole seconds; `duration_cast<seconds>(a - b).count()` is `a - b`.
* Pointers (`llama_model*`, `llama_context*`) are `Option Nat`, `none`
  standing for `nullptr`.
* The C++ `int` field `active_users` is an `Int` so that the non-negativity
  invariant is a real statement rather than a typing artefact.
-/

namespace Fllama

/-- First entry with the given key, as `unordered_map::find`. -/
def lookup {β : Type} : List (String × β) → String → Option β
  | [], _ => none
  | p :: rest, path => if p.1 = path then some p.2 else lookup rest path

/-- In-place mutation of the entry at `path` through its iterator. -/
def updateEntry {β : Type} (c : List (String × β)) (path : String) (f : β → β) :
    List (String × β) :=
  c.map (fun p => if p.1 = path then (p.1, f p.2) else p)

/-- Erasure by key, as `unordered_map::erase`. -/
def eraseEntry {β : Type} : List (String × β) → String → List (String × β)
  | [], _ => []
  | p :: rest, path =>
    if p.1 = path then eraseEntry rest path else p :: eraseEntry rest path

theorem lookup_updateEntry_self {β : Type} (c : List (String × β)) (path : String)
    (f : β → β) : lookup (updateEntry c path f) path = (lookup c path).map f := by
  induction c with
  | nil => rfl
  | cons p rest ih =>
    by_cases h : p.1 = path
    · simp [updateEntry, lookup, h]
    · simpa [updateEntry, lookup, h] using ih

theorem lookup_updateEntry_ne {β : Type} (c : List (String × β)) {q path : String}
    (f : β → β) (hq : q ≠ path) : lookup (updateEntry c q f) path = lookup c path := by
  induction c with
  | nil => rfl
  | cons p rest ih =>
    by_cases h : p.1 = q
    · have hpp : p.1 ≠ path := by rw [h]; exact hq
      simpa [updateEntry, lookup, h, hpp, hq] using ih
    · by_cases h2 : p.1 = path
      · simp [updateEntry, lookup, h, h2, Ne.symm hq]
      · simpa [updateEntry, lookup, h, h2] using ih

theorem updateEntry_of_lookup_none {β : Type} (c : List (String × β)) {path : String}
    (f : β → β) (h : lookup c path = none) : updateEntry c path f = c := by
  induction c with
  | nil => rfl
  | cons p rest ih =>
    by_cases hp : p.1 = path
    · simp [lookup, hp] at h
    · simp [lookup, hp] at h
      simp [updateEntry, hp] at *
      simpa [updateEntry] using ih h

theorem updateEntry_updateEntry {β : Type} (c : List (String × β)) (path : String)
    (f g : β → β) :
    updateEntry (updateEntry c path f) path g = updateEntry c path (fun r => g (f r)) := by
  induction c with
  | nil => rfl
  | cons p rest ih =>
    by_cases hp : p.1 = path <;> simp [updateEntry, hp] at * <;>
      simpa [updateEntry] using ih

theorem lookup_append_none {β : Type} (c d : List (String × β)) {path : String}
    (h : lookup c path = none) : lookup (c ++ d) path = lookup d path := by
  induction c with
  | nil => rfl
  | cons p rest ih =>
    by_cases hp : p.1 = path <;> simp [lookup, hp] at h ⊢
    exact ih h

theorem lookup_append_some {β : Type} (c d : List (String × β)) {path : String}
    {r : β} (h : lookup c path = some r) : lookup (c ++ d) path = some r := by
  induction c with
  | nil => simp [lookup] at h
  | cons p rest ih =>
    by_cases hp : p.1 = path <;> simp [lookup, hp] at h ⊢
    · exact h
    · exact ih h

theorem lookup_eraseEntry_self {β : Type} (c : List (String × β)) (q : String) :
    lookup (eraseEntry c q) q = none := by
  induction c with
  | nil => rfl
  | cons p rest ih =>
    by_cases hpq : p.1 = q
    · simpa [eraseEntry, hpq] using ih
    · simpa [eraseEntry, lookup, hpq] using ih

theorem lookup_eraseEntry_ne {β : Type} (c : List (String × β)) {q path : String}
    (hq : q ≠ path) : lookup (eraseEntry c q) path = lookup c path := by
  induction c with
  | nil => rfl
  | cons p rest ih =>
    by_cases hpq : p.1 = q
    · have hpp : p.1 ≠ path := by rw [hpq]; exact hq
      simpa [eraseEntry, lookup, hpq, hpp, hq] using ih
    · by_cases hpp : p.1 = path
      · simp [eraseEntry, lookup, hpq, hpp, Ne.symm hq]
      · simpa [eraseEntry, lookup, hpq, hpp] using ih

theorem mem_eraseEntry_subset {β : Type} {c : List (String × β)} {q : String}
    {p : String × β} (h : p ∈ eraseEntry c q) : p ∈ c := by
  induction c with
  | nil => simp [eraseEntry] at h
  | cons hd rest ih =>
    by_cases hq : hd.1 = q
    · simp [eraseEntry, hq] at h
      exact List.mem_cons_of_mem _ (ih h)
    · simp [eraseEntry, hq] at h
      rcases h with h | h
      · exact h ▸ List.mem_cons_self _ _
      · exact List.mem_cons_of_mem _ (ih h)

theorem lookup_eq_none_of_not_mem_keys {β : Type} {c : List (String × β)}
    {path : String} (h : path ∉ c.map Prod.fst) : lookup c path = none := by
  induction c with
  | nil => rfl
  | cons p rest ih =>
    simp only [List.map_cons, List.mem_cons] at h
    push_neg at h
    have h1 : p.1 ≠ path := fun hh => h.1 hh.symm
    simp only [lookup, if_neg h1]
    exact ih h.2

/-!
## Model resource cache (`fllama_inference_queue.cpp`)
-/

/-- One cached model's resources.  `model`/`ctx` are the stored
`llama_model*`/`llama_context*` handles.

Modelled from the spec: the `ModelResources(model, ctx)` constructor is
declared in `fllama_inference_queue.h`, which is not part of the sources
here; per the spec, a freshly registered entry has `active_users = 0` and
its `last_used` stamped with the current time. -/
structure ModelResources where
  model : Option Nat
  ctx : Option Nat
  last_used : Int
  active_users : Int
deriving Repr, DecidableEq

/-- The `cached_models` map. -/
abbrev Cache := List (String × ModelResources)

/-- `InferenceQueue::register_model` (fllama_inference_queue.cpp:70-87):
if the path is already cached, only refresh `last_used`; otherwise insert a
fresh entry. -/
def register_model (path : String) (model ctx : Option Nat) (now : Int)
    (c : Cache) : Cache :=
  match lookup c path with
  | some _ => updateEntry c path (fun r => { r with last_used := now })
  | none => c ++ [(path, ⟨model, ctx, now, 0⟩)]

/-- `InferenceQueue::get_cached_model` (fllama_inference_queue.cpp:89-107):
on a hit, refresh `last_used`, increment `active_users` and return the stored
handles; on a miss return `(nullptr, nullptr)` and leave the cache alone. -/
def get_cached_model (path : String) (now : Int) (c : Cache) :
    (Option Nat × Option Nat) × Cache :=
  match lookup c path with
  | some r =>
    ((r.model, r.ctx),
     updateEntry c path
       (fun s => { s with last_used := now, active_users := s.active_users + 1 }))
  | none => ((none, none), c)

/-- `InferenceQueue::mark_model_used` (fllama_inference_queue.cpp:109-116). -/
def mark_model_used (path : String) (now : Int) (c : Cache) : Cache :=
  match lookup c path with
  | some _ => updateEntry c path (fun r => { r with last_used := now })
  | none => c

/-- `InferenceQueue::increment_model_users` (fllama_inference_queue.cpp:118-127). -/
def increment_model_users (path : String) (c : Cache) : Cache :=
  match lookup c path with
  | some _ => updateEntry c path (fun r => { r with active_users := r.active_users + 1 })
  | none => c

/-- `InferenceQueue::decrement_model_users` (fllama_inference_queue.cpp:129-142):
decrement only when `active_users > 0`; always refresh `last_used`. -/
def decrement_model_users (path : String) (now : Int) (c : Cache) : Cache :=
  match lookup c path with
  | some _ =>
    updateEntry c path (fun r =>
      { r with
        active_users := if r.active_users > 0 then r.active_users - 1 else r.active_users,
        last_used := now })
  | none => c

/-- `InferenceQueue::free_model_resources` (fllama_inference_queue.cpp:148-168):
refuse to free an entry that still has active users; otherwise release the
handles and erase the entry. -/
def free_model_resources (path : String) (c : Cache) : Cache :=
  match lookup c path with
  | some r => if r.active_users > 0 then c else eraseEntry c path
  | none => c

/-- The `models_to_free` selection loops: collect the path of every entry
whose resources satisfy `f`. -/
def selectPaths (f : ModelResources → Bool) : Cache → List String
  | [] => []
  | p :: rest => if f p.2 then p.1 :: selectPaths f rest else selectPaths f rest

/-- Freeing every selected path via `free_model_resources`, in order. -/
def freeAll : List String → Cache → Cache
  | [], c => c
  | q :: K, c => freeAll K (free_model_resources q c)

/-- One wake of the janitor, the body of
`InferenceQueue::cleanup_inactive_models` (fllama_inference_queue.cpp:170-207):
select entries with `elapsed >= MODEL_INACTIVITY_TIMEOUT_SEC &&
active_users == 0`, then free them.  The timeout constant lives in the header,
so it is a parameter here. -/
def cleanup_inactive_models (timeout now : Int) (c : Cache) : Cache :=
  freeAll
    (selectPaths (fun r => decide (now - r.last_used ≥ timeout) && decide (r.active_users = 0)) c)
    c

/-- `InferenceQueue::clear_model_cache` (fllama_inference_queue.cpp:267-293):
select entries with `active_users == 0 || force_clear`, then free them. -/
def clear_model_cache (force_clear : Bool) (c : Cache) : Cache :=
  freeAll (selectPaths (fun r => decide (r.active_users = 0) || force_clear) c) c

theorem lookup_free_ne {q path : String} (c : Cache) (hq : q ≠ path) :
    lookup (free_model_resources q c) path = lookup c path := by
  unfold free_model_resources
  cases hl : lookup c q with
  | none => rfl
  | some r =>
    by_cases ha : r.active_users > 0
    · simp [ha]
    · simp [ha, lookup_eraseEntry_ne c hq]

theorem lookup_free_self_inactive {path : String} {c : Cache} {r : ModelResources}
    (hl : lookup c path = some r) (ha : ¬ r.active_users > 0) :
    lookup (free_model_resources path c) path = none := by
  unfold free_model_resources
  rw [hl]
  simp [ha, lookup_eraseEntry_self]

theorem free_self_active {path : String} {c : Cache} {r : ModelResources}
    (hl : lookup c path = some r) (ha : r.active_users > 0) :
    free_model_resources path c = c := by
  unfold free_model_resources
  rw [hl]
  simp [ha]

theorem lookup_free_none {q path : String} {c : Cache}
    (h : lookup c path = none) : lookup (free_model_resources q c) path = none := by
  by_cases hq : q = path
  · subst hq
    unfold free_model_resources
    rw [h]
    exact h
  · rw [lookup_free_ne c hq]
    exact h

theorem lookup_freeAll_not_mem {path : String} {K : List String} (c : Cache)
    (h : path ∉ K) : lookup (freeAll K c) path = lookup c path := by
  induction K generalizing c with
  | nil => rfl
  | cons q K ih =>
    rw [freeAll]
    have hqp : q ≠ path := fun hh => h (by rw [← hh]; exact List.mem_cons_self q K)
    rw [ih _ (fun hm => h (List.mem_cons_of_mem _ hm)), lookup_free_ne c hqp]

theorem lookup_freeAll_none {path : String} {K : List String} {c : Cache}
    (h : lookup c path = none) : lookup (freeAll K c) path = none := by
  induction K generalizing c with
  | nil => exact h
  | cons q K ih =>
    rw [freeAll]
    exact ih (lookup_free_none h)

theorem lookup_freeAll_mem_inactive {path : String} {K : List String} {c : Cache}
    {r : ModelResources} (hmem : path ∈ K) (hl : lookup c path = some r)
    (ha : r.active_users = 0) : lookup (freeAll K c) path = none := by
  induction K generalizing c with
  | nil => simp at hmem
  | cons q K ih =>
    rw [freeAll]
    by_cases hq : q = path
    · subst hq
      exact lookup_freeAll_none (lookup_free_self_inactive hl (by omega))
    · have hl2 : lookup (free_model_resources q c) path = some r := by
        rw [lookup_free_ne c hq]; exact hl
      rcases List.mem_cons.mp hmem with he | hm
      · exact absurd he.symm hq
      · exact ih hm hl2

theorem mem_selectPaths_of_lookup {f : ModelResources → Bool} {c : Cache}
    {path : String} {r : ModelResources} (hl : lookup c path = some r)
    (hf : f r = true) : path ∈ selectPaths f c := by
  induction c with
  | nil => simp [lookup] at hl
  | cons p rest ih =>
    by_cases hp : p.1 = path
    · simp only [lookup, if_pos hp] at hl
      injection hl with hl
      rw [selectPaths, hl, hf]
      simp [hp]
    · simp only [lookup, if_neg hp] at hl
      rw [selectPaths]
      by_cases hfp : f p.2 = true
      · rw [if_pos hfp]
        exact List.mem_cons_of_mem _ (ih hl)
      · rw [if_neg hfp]
        exact ih hl

theorem selectPaths_subset_keys {f : ModelResources → Bool} {c : Cache}
    {path : String} (h : path ∈ selectPaths f c) : path ∈ c.map Prod.fst := by
  induction c with
  | nil => simp [selectPaths] at h
  | cons p rest ih =>
    rw [selectPaths] at h
    by_cases hfp : f p.2 = true
    · rw [if_pos hfp] at h
      rcases List.mem_cons.mp h with he | hm
      · simp [he]
      · simp [ih hm]
    · rw [if_neg hfp] at h
      simp [ih h]

theorem not_mem_selectPaths {f : ModelResources → Bool} {c : Cache}
    {path : String} {r : ModelResources} (hnd : (c.map Prod.fst).Nodup)
    (hl : lookup c path = some r) (hf : f r = false) :
    path ∉ selectPaths f c := by
  induction c with
  | nil => simp [selectPaths]
  | cons p rest ih =>
    rw [List.map_cons] at hnd
    obtain ⟨hnp, hnd2⟩ := List.nodup_cons.mp hnd
    by_cases hp : p.1 = path
    · simp only [lookup, if_pos hp] at hl
      injection hl with hl
      rw [selectPaths, hl, hf]
      simp only [Bool.false_eq_true, if_false]
      exact fun hm => (hp ▸ hnp) (selectPaths_subset_keys hm)
    · simp only [lookup, if_neg hp] at hl
      rw [selectPaths]
      by_cases hfp : f p.2 = true
      · rw [if_pos hfp]
        simp only [List.mem_cons, not_or]
        exact ⟨fun hh => hp hh.symm, ih hnd2 hl⟩
      · rw [if_neg hfp]
        exact ih hnd2 hl

/-- C1: evaluation of `clear_model_cache` at a concrete cache.  An entry with
`active_users = 1` survives `clear_model_cache(true)`: the selection loop picks
it, but `free_model_resources` refuses to free it because it still has active
users.  An entry with `active_users = 0` is freed even though its inactivity
threshold is irrelevant here.  This contradicts the claim (and the function's
own comment) that a forced clear frees every entry regardless of its
active-user count. -/
theorem C1_force_clear_keeps_active_entry :
    clear_model_cache true [("m.gguf", ⟨some 1, some 2, 0, 1⟩)] =
      [("m.gguf", ⟨some 1, some 2, 0, 1⟩)] ∧
    clear_model_cache true [("m.gguf", ⟨some 1, some 2, 0, 0⟩)] = [] := by
  constructor <;> rfl

/-- C2: a janitor sweep (`cleanup_inactive_models`) frees a cached entry iff
its elapsed inactivity is at least the threshold AND it has no active users;
and an entry with active users is never freed by a non-forced
`clear_model_cache`, regardless of its inactivity. -/
theorem C2_janitor_sweep_frees_iff {c : Cache} (hnd : (c.map Prod.fst).Nodup)
    {path : String} {r : ModelResources} (hl : lookup c path = some r)
    (timeout now : Int) :
    lookup (cleanup_inactive_models timeout now c) path =
      (if now - r.last_used ≥ timeout ∧ r.active_users = 0 then none else some r) ∧
    (0 < r.active_users → lookup (clear_model_cache false c) path = some r) := by
  constructor
  · by_cases hq : now - r.last_used ≥ timeout ∧ r.active_users = 0
    · rw [if_pos hq]
      unfold cleanup_inactive_models
      apply lookup_freeAll_mem_inactive _ hl hq.2
      apply mem_selectPaths_of_lookup hl
      simp [hq.1, hq.2]
    · rw [if_neg hq]
      unfold cleanup_inactive_models
      have hsel : path ∉ selectPaths
          (fun r => decide (now - r.last_used ≥ timeout) && decide (r.active_users = 0)) c := by
        apply not_mem_selectPaths hnd hl
        have hne : ¬ ((decide (now - r.last_used ≥ timeout) &&
            decide (r.active_users = 0)) = true) := by
          simp only [Bool.and_eq_true, decide_eq_true_eq]
          exact hq
        exact Bool.eq_false_iff.mpr hne
      rw [lookup_freeAll_not_mem c hsel]
      exact hl
  · intro ha
    unfold clear_model_cache
    have hz : r.active_users ≠ 0 := by omega
    have hsel : path ∉ selectPaths (fun r => decide (r.active_users = 0) || false) c := by
      apply not_mem_selectPaths hnd hl
      simp [hz]
    rw [lookup_freeAll_not_mem c hsel]
    exact hl

/-- C2 witness: one stale inactive entry is freed by the sweep; one active
entry survives the non-forced clear. -/
theorem C2_witness :
    lookup (cleanup_inactive_models 60 100 [("m.gguf", ⟨some 1, some 2, 0, 0⟩)]) "m.gguf" =
      none ∧
    lookup (clear_model_cache false [("a.gguf", ⟨some 3, some 4, 0, 2⟩)]) "a.gguf" =
      some ⟨some 3, some 4, 0, 2⟩ := by
  constructor
  · have h := (C2_janitor_sweep_frees_iff
      (show (([("m.gguf", (⟨some 1, some 2, 0, 0⟩ : ModelResources))].map Prod.fst).Nodup)
        by decide)
      (show lookup [("m.gguf", (⟨some 1, some 2, 0, 0⟩ : ModelResources))] "m.gguf" =
        some ⟨some 1, some 2, 0, 0⟩ from rfl) 60 100).1
    rw [h]
    decide
  · exact (C2_janitor_sweep_frees_iff
      (show (([("a.gguf", (⟨some 3, some 4, 0, 2⟩ : ModelResources))].map Prod.fst).Nodup)
        by decide)
      (show lookup [("a.gguf", (⟨some 3, some 4, 0, 2⟩ : ModelResources))] "a.gguf" =
        some ⟨some 3, some 4, 0, 2⟩ from rfl) 60 100).2 (by norm_num)

/-- C6: `register_model` on an already-cached path only refreshes `last_used`
(the stored handles and `active_users` are untouched and the new handles are
dropped); on an absent path it inserts a fresh entry with `active_users = 0`;
other entries are never touched; and registering twice for the same path
equals registering once at the later time. -/
theorem C6_register_model_idempotent (c : Cache) (path : String)
    (m ctx m2 ctx2 : Option Nat) (t1 t2 : Int) :
    (∀ r, lookup c path = some r →
        lookup (register_model path m ctx t2 c) path = some { r with last_used := t2 }) ∧
    (lookup c path = none →
        register_model path m ctx t2 c = c ++ [(path, ⟨m, ctx, t2, 0⟩)]) ∧
    (∀ q, q ≠ path → lookup (register_model path m ctx t2 c) q = lookup c q) ∧
    register_model path m2 ctx2 t2 (register_model path m ctx t1 c) =
      register_model path m ctx t2 c := by
  refine ⟨?_, ?_, ?_, ?_⟩
  · intro r hl
    unfold register_model
    rw [hl]
    rw [lookup_updateEntry_self, hl]
    rfl
  · intro h
    unfold register_model
    rw [h]
  · intro q hq
    unfold register_model
    cases hl : lookup c path with
    | some r =>
      exact lookup_updateEntry_ne c _ (fun hh => hq hh.symm)
    | none =>
      cases hcq : lookup c q with
      | some r2 => rw [lookup_append_some c _ hcq]
      | none =>
        rw [lookup_append_none c _ hcq]
        simp [lookup]
        exact fun hh => hq hh.symm
  · cases hl : lookup c path with
    | some r =>
      have h1 : register_model path m ctx t1 c =
          updateEntry c path (fun r => { r with last_used := t1 }) := by
        unfold register_model
        rw [hl]
      have h2 : lookup (updateEntry c path (fun r => { r with last_used := t1 })) path =
          some { r with last_used := t1 } := by
        rw [lookup_updateEntry_self, hl]
        rfl
      rw [h1]
      unfold register_model
      rw [h2, hl, updateEntry_updateEntry]
    | none =>
      have h1 : register_model path m ctx t1 c = c ++ [(path, ⟨m, ctx, t1, 0⟩)] := by
        unfold register_model
        rw [hl]
      have h2 : lookup (c ++ [(path, (⟨m, ctx, t1, 0⟩ : ModelResources))]) path =
          some ⟨m, ctx, t1, 0⟩ := by
        rw [lookup_append_none c _ hl]
        simp [lookup]
      rw [h1]
      unfold register_model
      rw [h2, hl]
      have h3 := updateEntry_of_lookup_none c (fun r => { r with last_used := t2 }) hl
      unfold updateEntry
      unfold updateEntry at h3
      rw [List.map_append, h3]
      simp

/-- C6 witness: instantiate all three hypothesis-bearing conjuncts at a
concrete one-entry cache. -/
theorem C6_witness :
    lookup (register_model "m" (some 7) (some 8) 9 [("m", ⟨some 1, some 2, 0, 3⟩)]) "m" =
      some ⟨some 1, some 2, 9, 3⟩ ∧
    register_model "m" (some 7) (some 8) 9 [] = [("m", ⟨some 7, some 8, 9, 0⟩)] ∧
    lookup (register_model "m" (some 7) (some 8) 9 [("q", ⟨some 5, none, 1, 0⟩)]) "q" =
      some ⟨some 5, none, 1, 0⟩ := by
  refine ⟨?_, ?_, ?_⟩
  · exact (C6_register_model_idempotent [("m", ⟨some 1, some 2, 0, 3⟩)] "m"
      (some 7) (some 8) none none 0 9).1 ⟨some 1, some 2, 0, 3⟩ rfl
  · exact (C6_register_model_idempotent [] "m" (some 7) (some 8) none none 0 9).2.1 rfl
  · exact (C6_register_model_idempotent [("q", ⟨some 5, none, 1, 0⟩)] "m"
      (some 7) (some 8) none none 0 9).2.2.1 "q" (by decide)

/-- C7: `get_cached_model` on a cached path refreshes `last_used`, increments
`active_users` by one and returns the stored handle pair; on an uncached path
it returns the `(nullptr, nullptr)` sentinel and leaves the cache exactly
unchanged. -/
theorem C7_get_cached_model_spec (c : Cache) (path : String) (now : Int) :
    (∀ r, lookup c path = some r →
        (get_cached_model path now c).1 = (r.model, r.ctx) ∧
        lookup (get_cached_model path now c).2 path =
          some { r with last_used := now, active_users := r.active_users + 1 } ∧
        ∀ q, q ≠ path → lookup (get_cached_model path now c).2 q = lookup c q) ∧
    (lookup c path = none → get_cached_model path now c = ((none, none), c)) := by
  constructor
  · intro r hl
    refine ⟨?_, ?_, ?_⟩
    · unfold get_cached_model
      rw [hl]
    · unfold get_cached_model
      rw [hl]
      dsimp only
      rw [lookup_updateEntry_self, hl]
      rfl
    · intro q hq
      unfold get_cached_model
      rw [hl]
      dsimp only
      exact lookup_updateEntry_ne c _ (fun hh => hq hh.symm)
  · intro h
    unfold get_cached_model
    rw [h]

/-- C7 witness: one hit and one miss at concrete caches. -/
theorem C7_witness :
    (get_cached_model "m" 5 [("m", ⟨some 1, some 2, 0, 0⟩)]).1 = (some 1, some 2) ∧
    lookup (get_cached_model "m" 5 [("m", ⟨some 1, some 2, 0, 0⟩)]).2 "m" =
      some ⟨some 1, some 2, 5, 1⟩ ∧
    get_cached_model "q" 5 [("m", ⟨some 1, some 2, 0, 0⟩)] =
      ((none, none), [("m", ⟨some 1, some 2, 0, 0⟩)]) := by
  refine ⟨?_, ?_, ?_⟩
  · exact (((C7_get_cached_model_spec [("m", ⟨some 1, some 2, 0, 0⟩)] "m" 5).1
      ⟨some 1, some 2, 0, 0⟩ rfl)).1
  · have h := (((C7_get_cached_model_spec [("m", ⟨some 1, some 2, 0, 0⟩)] "m" 5).1
      ⟨some 1, some 2, 0, 0⟩ rfl)).2.1
    rw [h]
    rfl
  · exact (C7_get_cached_model_spec [("m", ⟨some 1, some 2, 0, 0⟩)] "q" 5).2 rfl

/-- One externally issued cache operation, covering the whole public surface
that touches `cached_models`. -/
inductive CacheOp where
  | registerOp (path : String) (model ctx : Option Nat) (now : Int)
  | acquireOp (path : String) (now : Int)
  | markUsedOp (path : String) (now : Int)
  | incrementOp (path : String)
  | releaseOp (path : String) (now : Int)
  | sweepOp (timeout now : Int)
  | clearOp (force_clear : Bool)

/-- The cache after one operation (return values discarded). -/
def applyOp (c : Cache) : CacheOp → Cache
  | .registerOp path m ctx now => register_model path m ctx now c
  | .acquireOp path now => (get_cached_model path now c).2
  | .markUsedOp path now => mark_model_used path now c
  | .incrementOp path => increment_model_users path c
  | .releaseOp path now => decrement_model_users path now c
  | .sweepOp timeout now => cleanup_inactive_models timeout now c
  | .clearOp force => clear_model_cache force c

/-- Invariant: no cached entry has a negative `active_users` count. -/
def usersNonneg (c : Cache) : Prop := ∀ p ∈ c, 0 ≤ p.2.active_users

theorem usersNonneg_updateEntry {c : Cache} {path : String}
    {f : ModelResources → ModelResources} (h : usersNonneg c)
    (hf : ∀ r, 0 ≤ r.active_users → 0 ≤ (f r).active_users) :
    usersNonneg (updateEntry c path f) := by
  intro p hp
  unfold updateEntry at hp
  rcases List.mem_map.mp hp with ⟨q, hq, hpq⟩
  by_cases hqp : q.1 = path
  · rw [if_pos hqp] at hpq
    rw [← hpq]
    exact hf _ (h q hq)
  · rw [if_neg hqp] at hpq
    rw [← hpq]
    exact h q hq

theorem usersNonneg_free {c : Cache} {q : String} (h : usersNonneg c) :
    usersNonneg (free_model_resources q c) := by
  unfold free_model_resources
  cases hl : lookup c q with
  | none => exact h
  | some r =>
    show usersNonneg (if r.active_users > 0 then c else eraseEntry c q)
    by_cases ha : r.active_users > 0
    · rw [if_pos ha]
      exact h
    · rw [if_neg ha]
      exact fun p hp => h p (mem_eraseEntry_subset hp)

theorem usersNonneg_freeAll {K : List String} {c : Cache} (h : usersNonneg c) :
    usersNonneg (freeAll K c) := by
  induction K generalizing c with
  | nil => exact h
  | cons q K ih => exact ih (usersNonneg_free h)

theorem usersNonneg_applyOp {c : Cache} (h : usersNonneg c) (op : CacheOp) :
    usersNonneg (applyOp c op) := by
  cases op with
  | registerOp path m ctx now =>
    show usersNonneg (register_model path m ctx now c)
    unfold register_model
    cases hl : lookup c path with
    | some r =>
      show usersNonneg (updateEntry c path fun r => { r with last_used := now })
      exact usersNonneg_updateEntry h (fun r hr => hr)
    | none =>
      show usersNonneg (c ++ [(path, ⟨m, ctx, now, 0⟩)])
      intro p hp
      rcases List.mem_append.mp hp with hp | hp
      · exact h p hp
      · simp at hp
        simp [hp]
  | acquireOp path now =>
    show usersNonneg (get_cached_model path now c).2
    unfold get_cached_model
    cases hl : lookup c path with
    | some r =>
      show usersNonneg (updateEntry c path fun s =>
        { s with last_used := now, active_users := s.active_users + 1 })
      exact usersNonneg_updateEntry h (fun r hr => by
        show (0 : Int) ≤ r.active_users + 1
        omega)
    | none => exact h
  | markUsedOp path now =>
    show usersNonneg (mark_model_used path now c)
    unfold mark_model_used
    cases hl : lookup c path with
    | some r =>
      show usersNonneg (updateEntry c path fun r => { r with last_used := now })
      exact usersNonneg_updateEntry h (fun r hr => hr)
    | none => exact h
  | incrementOp path =>
    show usersNonneg (increment_model_users path c)
    unfold increment_model_users
    cases hl : lookup c path with
    | some r =>
      show usersNonneg (updateEntry c path fun r =>
        { r with active_users := r.active_users + 1 })
      exact usersNonneg_updateEntry h (fun r hr => by
        show (0 : Int) ≤ r.active_users + 1
        omega)
    | none => exact h
  | releaseOp path now =>
    show usersNonneg (decrement_model_users path now c)
    unfold decrement_model_users
    cases hl : lookup c path with
    | some r =>
      show usersNonneg (updateEntry c path fun r =>
        { r with
          active_users := if r.active_users > 0 then r.active_users - 1 else r.active_users,
          last_used := now })
      exact usersNonneg_updateEntry h (fun r hr => by
        show (0 : Int) ≤ if r.active_users > 0 then r.active_users - 1 else r.active_users
        split <;> omega)
    | none => exact h
  | sweepOp timeout now => exact usersNonneg_freeAll h
  | clearOp force => exact usersNonneg_freeAll h

theorem usersNonneg_foldl {ops : List CacheOp} {c : Cache} (h : usersNonneg c) :
    usersNonneg (ops.foldl applyOp c) := by
  induction ops generalizing c with
  | nil => exact h
  | cons op ops ih => exact ih (usersNonneg_applyOp h op)

/-- C3: starting from the empty cache, no sequence of cache operations ever
drives an entry's `active_users` below zero; in particular
`decrement_model_users` on an entry whose count is 0 leaves the count at 0
(only `last_used` is refreshed). -/
theorem C3_active_users_never_negative :
    (∀ ops : List CacheOp, usersNonneg (ops.foldl applyOp [])) ∧
    (∀ (c : Cache) (path : String) (now : Int) (r : ModelResources),
      lookup c path = some r → r.active_users = 0 →
      lookup (decrement_model_users path now c) path =
        some { r with last_used := now }) := by
  constructor
  · intro ops
    exact usersNonneg_foldl (fun p hp => by simp at hp)
  · intro c path now r hl h0
    unfold decrement_model_users
    rw [hl]
    rw [lookup_updateEntry_self, hl]
    simp [h0]

/-- C3 witness: a register/acquire/release/release sequence stays non-negative,
and a decrement at count 0 keeps the count at 0. -/
theorem C3_witness :
    usersNonneg
      ([CacheOp.registerOp "m" (some 1) (some 2) 0, CacheOp.acquireOp "m" 1,
        CacheOp.releaseOp "m" 2, CacheOp.releaseOp "m" 3].foldl applyOp []) ∧
    lookup (decrement_model_users "m" 7 [("m", ⟨some 1, some 2, 0, 0⟩)]) "m" =
      some ⟨some 1, some 2, 7, 0⟩ := by
  constructor
  · exact C3_active_users_never_negative.1 _
  · exact C3_active_users_never_negative.2 [("m", ⟨some 1, some 2, 0, 0⟩)] "m" 7
      ⟨some 1, some 2, 0, 0⟩ rfl rfl

/-!
## Task queue and worker loop (`fllama_inference_queue.cpp`)

The task body `[request, callback]() { fllama_inference_sync(request, callback); }`
is opaque long-running code; executing it either returns or raises.  Following
the embedding convention for fallible code, a task carries the outcome of its
body as an `Except` value: `Except.ok ()` for a normal return, `Except.error e`
for an exception reaching the worker's try/catch
(fllama_inference_queue.cpp:250-259).
-/

/-- The `TaskWrapper` queued by `InferenceQueue::enqueue`. -/
structure TaskWrapper where
  body : Except String Unit
  request_id : Int
deriving Repr

/-- The `cancel_flags` map (`std::unordered_map<int, bool>`). -/
abbrev Flags := List (Int × Bool)

def lookupFlag : Flags → Int → Option Bool
  | [], _ => none
  | p :: rest, rid => if p.1 = rid then some p.2 else lookupFlag rest rid

/-- `InferenceQueue::is_cancelled` (fllama_inference_queue.cpp:64-68):
present and true. -/
def is_cancelled (flags : Flags) (rid : Int) : Bool :=
  match lookupFlag flags rid with
  | some b => b
  | none => false

/-- `cancel_flags.erase(id)`. -/
def eraseFlag : Flags → Int → Flags
  | [], _ => []
  | p :: rest, rid => if p.1 = rid then eraseFlag rest rid else p :: eraseFlag rest rid

/-- `InferenceQueue::cancel` (fllama_inference_queue.cpp:56-62):
`cancel_flags[request_id] = true`. -/
def cancel (flags : Flags) (rid : Int) : Flags :=
  match lookupFlag flags rid with
  | some _ => flags.map (fun p => if p.1 = rid then (p.1, true) else p)
  | none => flags ++ [(rid, true)]

/-- `InferenceQueue::enqueue` (fllama_inference_queue.cpp:46-54): push to the
back of the task queue. -/
def enqueue (t : TaskWrapper) (q : List TaskWrapper) : List TaskWrapper := q ++ [t]

/-- A log record: the request id of a task the worker actually ran, with the
outcome its body produced (exceptions are caught and merely logged). -/
abbrev WorkerRecord := Int × Except String Unit

/-- One iteration of the worker loop on a non-empty queue
(fllama_inference_queue.cpp:209-264): pop the front task, re-check its
cancellation flag; if set, discard the task and erase the flag without
executing; otherwise execute the body (any failure is caught).  Returns
the optional execution record, the remaining queue and the flag set. -/
def workerStep (t : TaskWrapper) (rest : List TaskWrapper) (flags : Flags) :
    Option WorkerRecord × List TaskWrapper × Flags :=
  if is_cancelled flags t.request_id then
    (none, rest, eraseFlag flags t.request_id)
  else
    (some (t.request_id, t.body), rest, flags)

/-- The worker loop `InferenceQueue::process_inference` run to queue
exhaustion: the ordered log of executed tasks and the final flag set. -/
def process_inference : List TaskWrapper → Flags → List WorkerRecord × Flags
  | [], flags => ([], flags)
  | t :: rest, flags =>
    if is_cancelled flags t.request_id then
      process_inference rest (eraseFlag flags t.request_id)
    else
      let r := process_inference rest flags
      ((t.request_id, t.body) :: r.1, r.2)

theorem lookupFlag_eraseFlag_self (flags : Flags) (rid : Int) :
    lookupFlag (eraseFlag flags rid) rid = none := by
  induction flags with
  | nil => rfl
  | cons p rest ih =>
    by_cases hp : p.1 = rid
    · simpa [eraseFlag, hp] using ih
    · simpa [eraseFlag, lookupFlag, hp] using ih

/-- C4: when a task's cancellation flag is set at the moment the worker
dequeues it, the worker produces no execution record for it (the body never
runs), the flag is removed from the flag set, and the run over the whole
queue continues as if the task had not been there. -/
theorem C4_cancelled_task_never_executes (t : TaskWrapper)
    (rest : List TaskWrapper) (flags : Flags)
    (hc : is_cancelled flags t.request_id = true) :
    workerStep t rest flags = (none, rest, eraseFlag flags t.request_id) ∧
    lookupFlag (eraseFlag flags t.request_id) t.request_id = none ∧
    process_inference (t :: rest) flags =
      process_inference rest (eraseFlag flags t.request_id) := by
  refine ⟨?_, lookupFlag_eraseFlag_self flags t.request_id, ?_⟩
  · unfold workerStep
    rw [if_pos hc]
  · conv_lhs => rw [process_inference]
    rw [if_pos hc]

/-- C4 witness: a queued task whose id is flagged is discarded and its flag
erased. -/
theorem C4_witness :
    workerStep ⟨Except.ok (), 1⟩ [] [(1, true)] = (none, [], []) ∧
    lookupFlag (eraseFlag [((1 : Int), true)] 1) 1 = none ∧
    process_inference [⟨Except.ok (), 1⟩] [(1, true)] =
      process_inference [] (eraseFlag [((1 : Int), true)] 1) := by
  have h := C4_cancelled_task_never_executes ⟨Except.ok (), 1⟩ [] [(1, true)] rfl
  exact ⟨by rw [h.1]; rfl, h.2.1, h.2.2⟩

theorem process_inference_no_flags (q : List TaskWrapper) :
    process_inference q [] = (q.map (fun t => (t.request_id, t.body)), []) := by
  induction q with
  | nil => rfl
  | cons t rest ih =>
    unfold process_inference
    have : is_cancelled [] t.request_id = false := rfl
    rw [this]
    simp [ih]

theorem foldl_enqueue (ts : List TaskWrapper) (q : List TaskWrapper) :
    ts.foldl (fun acc t => enqueue t acc) q = q ++ ts := by
  induction ts generalizing q with
  | nil => simp
  | cons t ts ih =>
    rw [List.foldl_cons, ih]
    simp [enqueue]

theorem process_inference_sublist (q : List TaskWrapper) (flags : Flags) :
    List.Sublist (process_inference q flags).1
      (q.map (fun t => (t.request_id, t.body))) := by
  induction q generalizing flags with
  | nil => simp [process_inference]
  | cons t rest ih =>
    unfold process_inference
    by_cases hc : is_cancelled flags t.request_id = true
    · rw [if_pos hc]
      exact List.Sublist.cons _ (ih _)
    · rw [if_neg hc]
      exact List.Sublist.cons₂ _ (ih _)

/-- C5: the worker executes tasks in exactly the order they were enqueued.
With no cancellation flags, running the worker over any sequence of enqueues
executes precisely that sequence in FIFO order; and under arbitrary flags the
execution log is an order-preserving subsequence of the queue (no
reordering). -/
theorem C5_fifo_order (ts : List TaskWrapper) (flags : Flags) :
    (process_inference (ts.foldl (fun acc t => enqueue t acc) []) []).1 =
      ts.map (fun t => (t.request_id, t.body)) ∧
    List.Sublist (process_inference ts flags).1
      (ts.map (fun t => (t.request_id, t.body))) := by
  constructor
  · rw [foldl_enqueue, List.nil_append, process_inference_no_flags]
  · exact process_inference_sublist ts flags

/-- C8: a task whose body fails is caught at the worker boundary: the failure
is only logged (recorded in the log), the worker proceeds to the remaining
queue, and apart from the completed dequeue the queue processing and the flag
set are exactly as they would have been. -/
theorem C8_task_failure_isolated (t : TaskWrapper) (rest : List TaskWrapper)
    (flags : Flags) (e : String) (hb : t.body = Except.error e)
    (hc : is_cancelled flags t.request_id = false) :
    process_inference (t :: rest) flags =
      ((t.request_id, Except.error e) :: (process_inference rest flags).1,
       (process_inference rest flags).2) := by
  conv_lhs => rw [process_inference]
  rw [if_neg (by rw [hc]; exact Bool.false_ne_true), hb]

/-- C8 witness: a failing task followed by a succeeding one — the failure is
logged and the next task still executes. -/
theorem C8_witness :
    process_inference [⟨Except.error "boom", 1⟩, ⟨Except.ok (), 2⟩] [] =
      ([((1 : Int), Except.error "boom"), ((2 : Int), Except.ok ())], []) := by
  have h := C8_task_failure_isolated ⟨Except.error "boom", 1⟩ [⟨Except.ok (), 2⟩]
    [] "boom" rfl rfl
  rw [h]
  rfl

/-!
## Secondary tokenizer cache (`fllama_tokenize.cpp`)

`llama_load_model_from_file` is external; it is passed in as an oracle
`load : String → Option Nat` (`none` models a `nullptr` result), and
`::llama_tokenize` as an oracle `tok : Nat → Int` giving `n_tokens` for a
loaded model handle.  `size_t` has word width `w`; the C++ conversion of an
`int` value to `size_t` is reduction modulo `2 ^ w`.
-/

/-- `ModelCacheEntry` (fllama_tokenize.cpp:89-92). -/
structure ModelCacheEntry where
  model : Nat
  last_access : Int
deriving Repr, DecidableEq

/-- The tokenizer-side `model_cache`. -/
abbrev TokCache := List (String × ModelCacheEntry)

/-- `cleanup_cache` (fllama_tokenize.cpp:97-112): erase every entry whose
elapsed time since last access strictly exceeds 30 seconds. -/
def cleanup_cache (now : Int) : TokCache → TokCache
  | [] => []
  | e :: rest =>
    if now - e.2.last_access > 30 then cleanup_cache now rest
    else e :: cleanup_cache now rest

/-- `_get_or_load_model` (fllama_tokenize.cpp:114-149): under the cache lock,
first sweep stale entries, then serve the path — on a hit refresh
`last_access` and return the cached handle; on a miss call the loader, and
only on success insert the new entry. -/
def _get_or_load_model (load : String → Option Nat) (path : String) (now : Int)
    (c : TokCache) : Option Nat × TokCache :=
  match lookup (cleanup_cache now c) path with
  | some e =>
    (some e.model,
     updateEntry (cleanup_cache now c) path (fun s => { s with last_access := now }))
  | none =>
    match load path with
    | none => (none, cleanup_cache now c)
    | some m => (some m, cleanup_cache now c ++ [(path, ⟨m, now⟩)])

/-- C++ conversion of a signed value to an unsigned integer of width `w`. -/
def sizeT (w : Nat) (i : Int) : Nat := (i % (2 ^ w : Int)).toNat

/-- `fllama_tokenize` (fllama_tokenize.cpp:35-87): load (or fetch) the model;
`return -1` (converted to `size_t`) when the model cannot be loaded; `return 0`
when the tokenizer reports an error (negative count); otherwise return the
token count. -/
def fllama_tokenize (w : Nat) (load : String → Option Nat) (tok : Nat → Int)
    (path : String) (now : Int) (c : TokCache) : Nat × TokCache :=
  match _get_or_load_model load path now c with
  | (none, c1) => (sizeT w (-1), c1)
  | (some m, c1) => if tok m < 0 then (0, c1) else ((tok m).toNat, c1)

theorem get_or_load_hit {load : String → Option Nat} {path : String} {now : Int}
    {c : TokCache} {e : ModelCacheEntry}
    (h : lookup (cleanup_cache now c) path = some e) :
    _get_or_load_model load path now c =
      (some e.model,
       updateEntry (cleanup_cache now c) path (fun s => { s with last_access := now })) := by
  unfold _get_or_load_model
  rw [h]

theorem get_or_load_miss_none {load : String → Option Nat} {path : String}
    {now : Int} {c : TokCache} (h1 : lookup (cleanup_cache now c) path = none)
    (h2 : load path = none) :
    _get_or_load_model load path now c = (none, cleanup_cache now c) := by
  unfold _get_or_load_model
  rw [h1, h2]

theorem get_or_load_miss_some {load : String → Option Nat} {path : String}
    {now : Int} {c : TokCache} {m : Nat}
    (h1 : lookup (cleanup_cache now c) path = none) (h2 : load path = some m) :
    _get_or_load_model load path now c =
      (some m, cleanup_cache now c ++ [(path, ⟨m, now⟩)]) := by
  unfold _get_or_load_model
  rw [h1, h2]

theorem mem_cleanup_cache {now : Int} {c : TokCache} {e : String × ModelCacheEntry} :
    e ∈ cleanup_cache now c ↔ (e ∈ c ∧ ¬ now - e.2.last_access > 30) := by
  induction c with
  | nil => simp [cleanup_cache]
  | cons p rest ih =>
    by_cases hp : now - p.2.last_access > 30
    · rw [cleanup_cache, if_pos hp, ih]
      constructor
      · exact fun h => ⟨List.mem_cons_of_mem _ h.1, h.2⟩
      · rintro ⟨h1, h2⟩
        rcases List.mem_cons.mp h1 with he | hm
        · exact absurd (he ▸ hp) h2
        · exact ⟨hm, h2⟩
    · rw [cleanup_cache, if_neg hp]
      constructor
      · intro h
        rcases List.mem_cons.mp h with he | hm
        · exact ⟨he ▸ List.mem_cons_self p rest, he ▸ hp⟩
        · exact ⟨List.mem_cons_of_mem _ (ih.mp hm).1, (ih.mp hm).2⟩
      · rintro ⟨h1, h2⟩
        rcases List.mem_cons.mp h1 with he | hm
        · exact he ▸ List.mem_cons_self _ _
        · exact List.mem_cons_of_mem _ (ih.mpr ⟨hm, h2⟩)

theorem lookup_cleanup_fresh {now : Int} {c : TokCache} {path : String}
    {en : ModelCacheEntry} (hl : lookup c path = some en)
    (hf : ¬ now - en.last_access > 30) :
    lookup (cleanup_cache now c) path = some en := by
  induction c with
  | nil => simp [lookup] at hl
  | cons p rest ih =>
    by_cases hp : p.1 = path
    · simp only [lookup, if_pos hp] at hl
      injection hl with hl
      rw [cleanup_cache, hl, if_neg hf]
      simp [lookup, hp]
      exact hl
    · simp only [lookup, if_neg hp] at hl
      by_cases hst : now - p.2.last_access > 30
      · rw [cleanup_cache, if_pos hst]
        exact ih hl
      · rw [cleanup_cache, if_neg hst]
        simp only [lookup, if_neg hp]
        exact ih hl

theorem lookup_cleanup_none {now : Int} {c : TokCache} {path : String}
    (hl : lookup c path = none) : lookup (cleanup_cache now c) path = none := by
  induction c with
  | nil => rfl
  | cons p rest ih =>
    by_cases hp : p.1 = path
    · simp [lookup, hp] at hl
    · simp only [lookup, if_neg hp] at hl
      by_cases hst : now - p.2.last_access > 30
      · rw [cleanup_cache, if_pos hst]
        exact ih hl
      · rw [cleanup_cache, if_neg hst]
        simp only [lookup, if_neg hp]
        exact ih hl

theorem lookup_cleanup_stale {now : Int} {c : TokCache} {path : String}
    {en : ModelCacheEntry} (hnd : (c.map Prod.fst).Nodup)
    (hl : lookup c path = some en) (hst : now - en.last_access > 30) :
    lookup (cleanup_cache now c) path = none := by
  induction c with
  | nil => simp [lookup] at hl
  | cons p rest ih =>
    rw [List.map_cons] at hnd
    obtain ⟨hnp, hnd2⟩ := List.nodup_cons.mp hnd
    by_cases hp : p.1 = path
    · simp only [lookup, if_pos hp] at hl
      injection hl with hl
      rw [cleanup_cache, hl, if_pos hst]
      exact lookup_cleanup_none
        (lookup_eq_none_of_not_mem_keys (fun hm => hnp (hp ▸ hm)))
    · simp only [lookup, if_neg hp] at hl
      by_cases hpst : now - p.2.last_access > 30
      · rw [cleanup_cache, if_pos hpst]
        exact ih hnd2 hl
      · rw [cleanup_cache, if_neg hpst]
        simp only [lookup, if_neg hp]
        exact ih hnd2 hl

/-- C9: every tokenizer-cache lookup first evicts exactly the entries whose
elapsed access time exceeds 30 seconds, then serves the path: a fresh entry is
a hit (handle returned, `last_access` refreshed); a miss loads and inserts;
and a stale entry triggers a fresh load instead of a hit. -/
theorem C9_tokenizer_cache_ttl (load : String → Option Nat) (path : String)
    (now : Int) (c : TokCache) :
    (∀ e, e ∈ cleanup_cache now c ↔ (e ∈ c ∧ ¬ now - e.2.last_access > 30)) ∧
    (∀ en, lookup c path = some en → ¬ now - en.last_access > 30 →
      (_get_or_load_model load path now c).1 = some en.model ∧
      lookup (_get_or_load_model load path now c).2 path =
        some { en with last_access := now }) ∧
    (lookup (cleanup_cache now c) path = none → ∀ m, load path = some m →
      _get_or_load_model load path now c =
        (some m, cleanup_cache now c ++ [(path, ⟨m, now⟩)])) ∧
    ((c.map Prod.fst).Nodup → ∀ en, lookup c path = some en →
      now - en.last_access > 30 →
      (_get_or_load_model load path now c).1 = load path) := by
  refine ⟨fun e => mem_cleanup_cache, ?_, ?_, ?_⟩
  · intro en hl hf
    have h1 := lookup_cleanup_fresh hl hf
    rw [get_or_load_hit h1]
    constructor
    · rfl
    · dsimp only
      rw [lookup_updateEntry_self, h1]
      rfl
  · intro h1 m h2
    exact get_or_load_miss_some h1 h2
  · intro hnd en hl hst
    have h1 := lookup_cleanup_stale hnd hl hst
    cases h2 : load path with
    | none => rw [get_or_load_miss_none h1 h2]
    | some m => rw [get_or_load_miss_some h1 h2]

/-- C9 witness: concrete hit, miss-insert, and stale-entry-reload scenarios
(threshold 30s, entry last accessed at 0, re-requested at 100). -/
theorem C9_witness :
    (("x.gguf", (⟨5, 0⟩ : ModelCacheEntry)) ∈
        cleanup_cache 100 [("x.gguf", ⟨5, 0⟩)] ↔
      (("x.gguf", (⟨5, 0⟩ : ModelCacheEntry)) ∈
          [("x.gguf", (⟨5, 0⟩ : ModelCacheEntry))] ∧
        ¬ (100 : Int) - (⟨5, 0⟩ : ModelCacheEntry).last_access > 30)) ∧
    (_get_or_load_model (fun _ => some 7) "x.gguf" 10 [("x.gguf", ⟨5, 0⟩)]).1 =
      some 5 ∧
    _get_or_load_model (fun _ => some 7) "x.gguf" 0 [] =
      (some 7, [("x.gguf", ⟨7, 0⟩)]) ∧
    (_get_or_load_model (fun _ => some 9) "x.gguf" 100 [("x.gguf", ⟨5, 0⟩)]).1 =
      (fun _ => some (9 : Nat)) "x.gguf" := by
  refine ⟨?_, ?_, ?_, ?_⟩
  · exact (C9_tokenizer_cache_ttl (fun _ => some 7) "x.gguf" 100
      [("x.gguf", ⟨5, 0⟩)]).1 ("x.gguf", ⟨5, 0⟩)
  · exact ((C9_tokenizer_cache_ttl (fun _ => some 7) "x.gguf" 10
      [("x.gguf", ⟨5, 0⟩)]).2.1 ⟨5, 0⟩ rfl (by decide)).1
  · exact (C9_tokenizer_cache_ttl (fun _ => some 7) "x.gguf" 0 []).2.2.1 rfl 7 rfl
  · exact (C9_tokenizer_cache_ttl (fun _ => some 9) "x.gguf" 100
      [("x.gguf", ⟨5, 0⟩)]).2.2.2 (by decide) ⟨5, 0⟩ rfl (by decide)

theorem sizeT_neg_one (w : Nat) : sizeT w (-1) = 2 ^ w - 1 := by
  unfold sizeT
  have hpos : (0 : Int) < 2 ^ w := by positivity
  have h1 : (-1 : Int) % 2 ^ w = 2 ^ w - 1 := by
    have h2 : (-1 : Int) = (2 ^ w - 1) + 2 ^ w * (-1) := by ring
    rw [h2, Int.add_mul_emod_self_left, Int.emod_eq_of_lt (by omega) (by omega)]
  rw [h1]
  have h3 : ((2 : Int) ^ w) = ((2 ^ w : Nat) : Int) := by push_cast; rfl
  rw [h3]
  omega

/-- C10: when the model cannot be loaded, `fllama_tokenize` returns `-1`
converted to `size_t`, i.e. `2 ^ w - 1`; a failed load inserts nothing, so a
later call for the same path invokes the loader again; a negative tokenizer
count yields `0`; otherwise the non-negative token count is returned. -/
theorem C10_tokenize_returns (w : Nat) (load : String → Option Nat)
    (tok : Nat → Int) (path : String) (now : Int) (c : TokCache) :
    sizeT w (-1) = 2 ^ w - 1 ∧
    (load path = none → lookup (cleanup_cache now c) path = none →
      (fllama_tokenize w load tok path now c).1 = 2 ^ w - 1 ∧
      lookup (fllama_tokenize w load tok path now c).2 path = none ∧
      ∀ (load2 : String → Option Nat) (now2 : Int),
        (_get_or_load_model load2 path now2
          (fllama_tokenize w load tok path now c).2).1 = load2 path) ∧
    (∀ m, (_get_or_load_model load path now c).1 = some m → tok m < 0 →
      (fllama_tokenize w load tok path now c).1 = 0) ∧
    (∀ m, (_get_or_load_model load path now c).1 = some m → 0 ≤ tok m →
      (fllama_tokenize w load tok path now c).1 = (tok m).toNat) := by
  refine ⟨sizeT_neg_one w, ?_, ?_, ?_⟩
  · intro h2 h1
    have hres := get_or_load_miss_none h1 h2
    have htok : fllama_tokenize w load tok path now c =
        (sizeT w (-1), cleanup_cache now c) := by
      unfold fllama_tokenize
      rw [hres]
    refine ⟨?_, ?_, ?_⟩
    · rw [htok]
      exact sizeT_neg_one w
    · rw [htok]
      exact h1
    · intro load2 now2
      rw [htok]
      show (_get_or_load_model load2 path now2 (cleanup_cache now c)).1 = load2 path
      have h3 : lookup (cleanup_cache now2 (cleanup_cache now c)) path = none :=
        lookup_cleanup_none h1
      cases h4 : load2 path with
      | none => rw [get_or_load_miss_none h3 h4]
      | some m => rw [get_or_load_miss_some h3 h4]
  · intro m hm htk
    cases hres : _get_or_load_model load path now c with
    | mk r1 c1 =>
      rw [hres] at hm
      have hm2 : r1 = some m := hm
      subst hm2
      have ht : fllama_tokenize w load tok path now c =
          (if tok m < 0 then ((0 : Nat), c1) else ((tok m).toNat, c1)) := by
        unfold fllama_tokenize
        rw [hres]
      rw [ht, if_pos htk]
  · intro m hm htk
    cases hres : _get_or_load_model load path now c with
    | mk r1 c1 =>
      rw [hres] at hm
      have hm2 : r1 = some m := hm
      subst hm2
      have ht : fllama_tokenize w load tok path now c =
          (if tok m < 0 then ((0 : Nat), c1) else ((tok m).toNat, c1)) := by
        unfold fllama_tokenize
        rw [hres]
      rw [ht, if_neg (by omega)]

/-- C10 witness: on a 64-bit `size_t`, a failed load returns `2 ^ 64 - 1` and
caches nothing (the retry consults the loader again); a tokenizer error
returns 0; a count of 3 is returned as 3. -/
theorem C10_witness :
    sizeT 64 (-1) = 2 ^ 64 - 1 ∧
    (fllama_tokenize 64 (fun _ => none) (fun _ => 0) "x.gguf" 0 []).1 =
      2 ^ 64 - 1 ∧
    (_get_or_load_model (fun _ => some 5) "x.gguf" 3
        (fllama_tokenize 64 (fun _ => none) (fun _ => 0) "x.gguf" 0 []).2).1 =
      (fun _ => some (5 : Nat)) "x.gguf" ∧
    (fllama_tokenize 64 (fun _ => some 4) (fun _ => -2) "x.gguf" 0 []).1 = 0 ∧
    (fllama_tokenize 64 (fun _ => some 4) (fun _ => 3) "x.gguf" 0 []).1 = 3 := by
  refine ⟨?_, ?_, ?_, ?_, ?_⟩
  · exact (C10_tokenize_returns 64 (fun _ => none) (fun _ => 0) "x.gguf" 0 []).1
  · exact ((C10_tokenize_returns 64 (fun _ => none) (fun _ => 0) "x.gguf" 0
      []).2.1 rfl rfl).1
  · exact ((C10_tokenize_returns 64 (fun _ => none) (fun _ => 0) "x.gguf" 0
      []).2.1 rfl rfl).2.2 (fun _ => some 5) 3
  · exact (C10_tokenize_returns 64 (fun _ => some 4) (fun _ => -2) "x.gguf" 0
      []).2.2.1 4 rfl (by norm_num)
  · have h := (C10_tokenize_returns 64 (fun _ => some 4) (fun _ => 3) "x.gguf" 0
      []).2.2.2 4 rfl (by norm_num)
    rw [h]
    rfl

end Fllama
